import Mathlib

/-!
Verification development for the portfolio rebalancing engine
(`portfolio_rebalancer.py`).  Monetary amounts and percentages are modelled
as rationals; dictionaries keyed by account name are modelled as association
lists (insertion-ordered, as Python dicts are) or, for the transient
available-cash tracker, as total functions with default 0 (matching the
pervasive use of `dict.get(account, 0)` in the source).
-/

namespace Portfolio

/-- A single investment holding (dataclass `Holding`). -/
structure Holding where
  owner : String
  asset_type : String
  account : String
  ticker : String
  name : String
  quantity : ℚ
  book_cost : ℚ
  current_value : ℚ
  current_weight : ℚ
  target_weight : ℚ
deriving DecidableEq, Repr, Inhabited

/-- `Holding.full_account`: owner display name followed by the account. -/
def Holding.full_account (h : Holding) : String :=
  (if h.owner = "EF" then "Ed Forrester" else "Lucy Forrester") ++ " " ++ h.account

/-- One entry of the per-account action lists built by `analyze_rebalancing`. -/
structure AccountAction where
  action : String
  ticker : String
  name : String
  value : ℚ
deriving DecidableEq, Repr

/-- A ticker-level adjustment as built in the first pass, still carrying the
ticker's holdings (the `holdings` key is popped before the result is
returned). -/
structure AdjWork where
  ticker : String
  name : String
  current_value : ℚ
  target_value : ℚ
  adjustment_value : ℚ
  current_weight : ℚ
  target_weight : ℚ
  adjustment_pct : ℚ
  action : String
  held_in_accounts : List String
  holdings : List Holding
deriving DecidableEq, Repr

/-- A ticker-level adjustment as returned (after `adj.pop('holdings')`). -/
structure Adjustment where
  ticker : String
  name : String
  current_value : ℚ
  target_value : ℚ
  adjustment_value : ℚ
  current_weight : ℚ
  target_weight : ℚ
  adjustment_pct : ℚ
  action : String
  held_in_accounts : List String
deriving DecidableEq, Repr

/-- Drop the `holdings` field (the source pops it before returning). -/
def AdjWork.strip (a : AdjWork) : Adjustment :=
  { ticker := a.ticker, name := a.name, current_value := a.current_value,
    target_value := a.target_value, adjustment_value := a.adjustment_value,
    current_weight := a.current_weight, target_weight := a.target_weight,
    adjustment_pct := a.adjustment_pct, action := a.action,
    held_in_accounts := a.held_in_accounts }

/-- The dictionary returned by `analyze_rebalancing`. -/
structure RebalanceResult where
  total_value : ℚ
  cash_balances : List (String × ℚ)
  total_cash : ℚ
  adjustments : List Adjustment
  account_actions : List (String × List AccountAction)
  account_cash_needs : List (String × ℚ)
deriving DecidableEq, Repr

/-- First-match lookup in an association list with a default, modelling
Python's `dict.get(key, default)`. -/
def lookupD {α : Type} (m : List (String × α)) (k : String) (d : α) : α :=
  match m with
  | [] => d
  | (k₁, v) :: rest => if k₁ = k then v else lookupD rest k d

/-- Append `a` to the list stored under `k`, creating the entry if absent:
the behaviour of `defaultdict(list)[k].append(a)`, preserving Python dict
insertion order. -/
def dappend {α : Type} (m : List (String × List α)) (k : String) (a : α) :
    List (String × List α) :=
  match m with
  | [] => [(k, [a])]
  | (k₁, v) :: rest =>
    if k₁ = k then (k₁, v ++ [a]) :: rest else (k₁, v) :: dappend rest k a

/-- Perform a sequence of keyed appends. -/
def applyPairs {α : Type} (m : List (String × List α))
    (ps : List (String × α)) : List (String × List α) :=
  ps.foldl (fun m p => dappend m p.1 p.2) m

/-- Pointwise update of the available-cash tracker. -/
def updateFn (tr : String → ℚ) (k : String) (v : ℚ) : String → ℚ :=
  fun x => if x = k then v else tr x

/-- Credit each pair's account by the pair's value
(`tracker[account] = tracker.get(account, 0) + sell_amount`). -/
def creditPairs (tr : String → ℚ) (ps : List (String × AccountAction)) : String → ℚ :=
  ps.foldl (fun tr p => updateFn tr p.1 (tr p.1 + p.2.value)) tr

/-- Debit each pair's account by the pair's value
(`tracker[account] = tracker.get(account, 0) - buy_amount`). -/
def debitPairs (tr : String → ℚ) (ps : List (String × AccountAction)) : String → ℚ :=
  ps.foldl (fun tr p => updateFn tr p.1 (tr p.1 - p.2.value)) tr

/-- Add a holding to its ticker's group, creating the group if absent:
`holdings_by_ticker[h.ticker].append(h)` on a `defaultdict(list)`. -/
def addToGroup (m : List (String × List Holding)) (h : Holding) :
    List (String × List Holding) :=
  dappend m h.ticker h

/-- `holdings_by_ticker`: group holdings by ticker in insertion order. -/
def groupByTicker (hs : List Holding) : List (String × List Holding) :=
  hs.foldl addToGroup []

/-- `max(h.target_weight for h in ticker_holdings)` (groups are nonempty). -/
def maxTargetWeight : List Holding → ℚ
  | [] => 0
  | h :: hs => hs.foldl (fun m x => max m x.target_weight) h.target_weight

/-- First pass, for one ticker group: build the `Adjustment` row, or skip the
ticker when its maximum target weight is 0 or the adjustment is within the
materiality threshold of 100. -/
def mkAdjustment (total_value : ℚ) (g : String × List Holding) : Option AdjWork :=
  let ticker_holdings := g.2
  let total_current_value := (ticker_holdings.map (·.current_value)).sum
  let target_weight := maxTargetWeight ticker_holdings
  if target_weight = 0 then none
  else
    let target_value := total_value * (target_weight / 100)
    let adjustment_value := target_value - total_current_value
    let current_weight :=
      if 0 < total_value then total_current_value / total_value * 100 else 0
    let adjustment_pct := current_weight - target_weight
    if 100 < |adjustment_value| then
      some { ticker := g.1,
             name := (ticker_holdings.headD default).name,
             current_value := total_current_value,
             target_value := target_value,
             adjustment_value := adjustment_value,
             current_weight := current_weight,
             target_weight := target_weight,
             adjustment_pct := adjustment_pct,
             action := if 0 < adjustment_value then "BUY" else "SELL",
             held_in_accounts := ticker_holdings.map Holding.full_account,
             holdings := ticker_holdings }
    else none

/-- First pass over all ticker groups: the emitted adjustments, in insertion
order (`results['adjustments']` before the final sort, and the values of
`adjustments_by_ticker`). -/
def adjustmentsPass (total_value : ℚ) (hs : List Holding) : List AdjWork :=
  (groupByTicker hs).filterMap (mkAdjustment total_value)

/-- The holdings of a ticker exited outright in the sell pass:
`[h for h in ticker_holdings if h.target_weight == 0 and h.current_value > 0]`. -/
def exitsOf (a : AdjWork) : List Holding :=
  a.holdings.filter (fun h => decide (h.target_weight = 0 ∧ 0 < h.current_value))

/-- The holdings kept: `[h for h in ticker_holdings if h.target_weight > 0]`. -/
def keepsOf (a : AdjWork) : List Holding :=
  a.holdings.filter (fun h => decide (0 < h.target_weight))

/-- Total value already exited for this ticker. -/
def exitValue (a : AdjWork) : ℚ :=
  ((exitsOf a).map (·.current_value)).sum

/-- Total current value in the accounts keeping the holding. -/
def keepValue (a : AdjWork) : ℚ :=
  ((keepsOf a).map (·.current_value)).sum

/-- `remaining_sell = abs(adjustment_value) - total_exit_value`. -/
def remainingSell (a : AdjWork) : ℚ :=
  |a.adjustment_value| - exitValue a

/-- Full-exit SELL actions for one ticker (one per zero-target holding with
positive value, for its entire current value). -/
def exitPairs (a : AdjWork) : List (String × AccountAction) :=
  (exitsOf a).map (fun h =>
    (h.full_account,
     { action := "SELL", ticker := a.ticker, name := h.name, value := h.current_value }))

/-- Proportional SELL actions for one ticker across the accounts keeping it,
emitted only when the ticker's aggregate action is SELL, some holding is kept,
and a positive `remaining_sell` is left after the full exits.  The proportion
falls back to 0 when the keep accounts hold no value. -/
def keepSellPairs (a : AdjWork) : List (String × AccountAction) :=
  if a.action = "SELL" ∧ keepsOf a ≠ [] then
    if 0 < remainingSell a then
      (keepsOf a).map (fun h =>
        (h.full_account,
         { action := "SELL", ticker := a.ticker, name := h.name,
           value := remainingSell a *
             (if 0 < keepValue a then h.current_value / keepValue a else 0) }))
    else []
  else []

/-- All SELL actions the second pass emits for one ticker, in emission order. -/
def tickerSellPairs (a : AdjWork) : List (String × AccountAction) :=
  exitPairs a ++ keepSellPairs a

/-- The whole sell allocation pass: the (account, action) pairs appended by
the second pass, in order.  The amounts do not read the cash tracker, so the
pass factors into this pair list plus the tracker credits below. -/
def sellPhase (total_value : ℚ) (hs : List Holding) : List (String × AccountAction) :=
  (adjustmentsPass total_value hs).flatMap tickerSellPairs

/-- The available-cash tracker seeded from the input cash balances. -/
def tracker0 (cash_balances : List (String × ℚ)) : String → ℚ :=
  fun a => lookupD cash_balances a 0

/-- The available-cash tracker after the sell allocation pass. -/
def trackerAfterSells (hs : List Holding) (cash_balances : List (String × ℚ))
    (total_value : ℚ) : String → ℚ :=
  creditPairs (tracker0 cash_balances) (sellPhase total_value hs)

/-- `total_available_cash`: the combined available cash over the accounts
eligible to buy the ticker, each distinct account counted once (the source
builds a dict keyed by account name before summing its values). -/
def totalAvailableCash (tr : String → ℚ) (a : AdjWork) : ℚ :=
  ((((keepsOf a).map Holding.full_account).dedup).map tr).sum

/-- BUY actions emitted for one ticker by the third pass, reading the
available-cash tracker `tr` as it stands when the ticker is processed:
proportional to each eligible account's share of the combined available cash
when that is positive, an even split otherwise. -/
def tickerBuyPairs (tr : String → ℚ) (a : AdjWork) : List (String × AccountAction) :=
  if a.action = "BUY" then
    if keepsOf a = [] then []
    else if 0 < totalAvailableCash tr a then
      (keepsOf a).map (fun h =>
        (h.full_account,
         { action := "BUY", ticker := a.ticker, name := h.name,
           value := a.adjustment_value * (tr h.full_account / totalAvailableCash tr a) }))
    else
      (keepsOf a).map (fun h =>
        (h.full_account,
         { action := "BUY", ticker := a.ticker, name := h.name,
           value := a.adjustment_value / ((keepsOf a).length : ℚ) }))
  else []

/-- The whole buy allocation pass: pairs emitted ticker by ticker, the
tracker being debited by each ticker's buys before the next ticker reads
it. -/
def buyPassPairs (tr : String → ℚ) : List AdjWork → List (String × AccountAction)
  | [] => []
  | a :: rest =>
    let ps := tickerBuyPairs tr a
    ps ++ buyPassPairs (debitPairs tr ps) rest

/-- The buy allocation pass of the engine, run on the post-sell tracker. -/
def buyPhase (hs : List Holding) (cash_balances : List (String × ℚ))
    (total_value : ℚ) : List (String × AccountAction) :=
  buyPassPairs (trackerAfterSells hs cash_balances total_value)
    (adjustmentsPass total_value hs)

/-- `results['account_actions']` after both allocation passes. -/
def accountActions (hs : List Holding) (cash_balances : List (String × ℚ))
    (total_value : ℚ) : List (String × List AccountAction) :=
  applyPairs (applyPairs [] (sellPhase total_value hs))
    (buyPhase hs cash_balances total_value)

/-- Fourth pass, for one account's action list: the funding need recorded for
it, if any: `net_cash_need = total buys - total |sells| - original cash`. -/
def cashNeedOf (cash_balances : List (String × ℚ))
    (e : String × List AccountAction) : Option (String × ℚ) :=
  let cash_needed := ((e.2.filter (fun a => decide (a.action = "BUY"))).map (·.value)).sum
  let cash_freed := ((e.2.filter (fun a => decide (a.action = "SELL"))).map (fun a => |a.value|)).sum
  let available_cash := lookupD cash_balances e.1 0
  let net_cash_need := cash_needed - cash_freed - available_cash
  if 0 < net_cash_need then some (e.1, net_cash_need) else none

/-- Insert an adjustment into a list sorted by descending absolute
adjustment value (stable: equal keys keep their relative order). -/
def insertByAbsDesc (a : AdjWork) : List AdjWork → List AdjWork
  | [] => [a]
  | b :: bs =>
    if |a.adjustment_value| ≤ |b.adjustment_value| then b :: insertByAbsDesc a bs
    else a :: b :: bs

/-- `results['adjustments'].sort(key=..., reverse=True)`: stable sort by
descending absolute adjustment value. -/
def sortByAbsDesc (l : List AdjWork) : List AdjWork :=
  l.foldr insertByAbsDesc []

/-- The rebalancing engine `analyze_rebalancing(holdings, cash_balances,
total_value, cash_target_percentage)`.  The cash-target quantities are
computed as in the source but feed into nothing downstream. -/
def analyze_rebalancing (holdings : List Holding) (cash_balances : List (String × ℚ))
    (total_value : ℚ) (cash_target_percentage : ℚ := 7.6) : RebalanceResult :=
  let target_cash_value := total_value * (cash_target_percentage / 100)
  let current_cash := (cash_balances.map Prod.snd).sum
  let target_investable := total_value - target_cash_value
  let current_investable := (holdings.map (·.current_value)).sum
  let _ := target_investable
  let _ := current_investable
  { total_value := total_value,
    cash_balances := cash_balances,
    total_cash := current_cash,
    adjustments := (sortByAbsDesc (adjustmentsPass total_value holdings)).map AdjWork.strip,
    account_actions := accountActions holdings cash_balances total_value,
    account_cash_needs :=
      (accountActions holdings cash_balances total_value).filterMap
        (cashNeedOf cash_balances) }

/-! ### Lemmas about the keyed-append maps and the cash tracker -/

/-- The keys of an association list. -/
def keys {α : Type} (m : List (String × α)) : List String := m.map Prod.fst

theorem lookupD_dappend {α : Type} (m : List (String × List α)) (k x : String) (a : α) :
    lookupD (dappend m k a) x [] = lookupD m x [] ++ if k = x then [a] else [] := by
  induction m with
  | nil => simp [dappend, lookupD]
  | cons e rest ih =>
    obtain ⟨k₁, v⟩ := e
    by_cases h1 : k₁ = k
    · subst h1
      by_cases h2 : k₁ = x
      · subst h2; simp [dappend, lookupD]
      · simp [dappend, lookupD, h2]
    · by_cases h2 : k₁ = x
      · subst h2
        have hkx : ¬ k = k₁ := fun h => h1 h.symm
        simp [dappend, lookupD, h1, hkx]
      · simp [dappend, lookupD, h1, h2, ih]

theorem lookupD_applyPairs {α : Type} (ps : List (String × α))
    (m : List (String × List α)) (x : String) :
    lookupD (applyPairs m ps) x [] =
      lookupD m x [] ++ (ps.filter (fun p => decide (p.1 = x))).map Prod.snd := by
  induction ps generalizing m with
  | nil => simp [applyPairs]
  | cons p rest ih =>
    have hstep : applyPairs m (p :: rest) = applyPairs (dappend m p.1 p.2) rest := rfl
    rw [hstep, ih, lookupD_dappend]
    by_cases h : p.1 = x <;> simp [h, List.filter_cons]

theorem keys_dappend {α : Type} (m : List (String × List α)) (k : String) (a : α) :
    keys (dappend m k a) = if k ∈ keys m then keys m else keys m ++ [k] := by
  induction m with
  | nil => simp [dappend, keys]
  | cons e rest ih =>
    obtain ⟨k₁, v⟩ := e
    by_cases h : k₁ = k
    · subst h; simp [dappend, keys]
    · have hkx : ¬ k = k₁ := fun hh => h hh.symm
      simp only [dappend, if_neg h, keys, List.map_cons] at ih ⊢
      rw [ih]
      by_cases hm : k ∈ List.map Prod.fst rest
      · simp [List.mem_cons, hkx, hm]
      · simp [List.mem_cons, hkx, hm]

theorem keys_nodup_dappend {α : Type} (m : List (String × List α)) (k : String) (a : α)
    (hm : (keys m).Nodup) : (keys (dappend m k a)).Nodup := by
  rw [keys_dappend]
  split
  · exact hm
  · next hk => simp [List.nodup_append, hm, hk]

theorem keys_nodup_applyPairs {α : Type} (ps : List (String × α))
    (m : List (String × List α)) (hm : (keys m).Nodup) :
    (keys (applyPairs m ps)).Nodup := by
  induction ps generalizing m with
  | nil => exact hm
  | cons p rest ih => exact ih _ (keys_nodup_dappend m p.1 p.2 hm)

theorem lookupD_of_mem {α : Type} (m : List (String × α)) (d : α)
    (hm : (keys m).Nodup) (e : String × α) (he : e ∈ m) :
    lookupD m e.1 d = e.2 := by
  induction m with
  | nil => cases he
  | cons f rest ih =>
    have hm2 : f.1 ∉ keys rest ∧ (keys rest).Nodup := by
      simpa [keys, List.nodup_cons] using hm
    rcases List.mem_cons.mp he with h | h
    · subst h; simp [lookupD]
    · have hmem : e.1 ∈ keys rest := by
        simpa [keys] using List.mem_map_of_mem Prod.fst h
      have hne : ¬ f.1 = e.1 := fun hc => hm2.1 (hc ▸ hmem)
      simp only [lookupD, hne, if_false]
      exact ih hm2.2 h

theorem snd_ne_nil_dappend {α : Type} (m : List (String × List α)) (k : String) (a : α)
    (hm : ∀ e ∈ m, e.2 ≠ ([] : List α)) : ∀ e ∈ dappend m k a, e.2 ≠ [] := by
  induction m with
  | nil => intro e he; simp [dappend] at he; subst he; simp
  | cons f rest ih =>
    intro e he
    obtain ⟨k₁, v⟩ := f
    by_cases h : k₁ = k
    · subst h
      simp only [dappend, if_pos rfl] at he
      rcases List.mem_cons.mp he with h1 | h1
      · subst h1; simp
      · exact hm e (List.mem_cons_of_mem _ h1)
    · simp only [dappend, if_neg h] at he
      rcases List.mem_cons.mp he with h1 | h1
      · subst h1; exact hm _ (List.mem_cons_self _ _)
      · exact ih (fun f hf => hm f (List.mem_cons_of_mem _ hf)) e h1

theorem flatMap_dappend_perm {α : Type} (m : List (String × List α)) (k : String) (a : α) :
    ((dappend m k a).flatMap Prod.snd).Perm (m.flatMap Prod.snd ++ [a]) := by
  induction m with
  | nil => simp [dappend]
  | cons e rest ih =>
    obtain ⟨k₁, v⟩ := e
    by_cases h : k₁ = k
    · subst h
      have hd : dappend ((k₁, v) :: rest) k₁ a = (k₁, v ++ [a]) :: rest := by
        simp [dappend]
      rw [hd]
      simp only [List.flatMap_cons]
      rw [List.append_assoc, List.append_assoc]
      exact List.Perm.append_left v List.perm_append_comm
    · have hd : dappend ((k₁, v) :: rest) k a = (k₁, v) :: dappend rest k a := by
        simp [dappend, h]
      rw [hd]
      simp only [List.flatMap_cons]
      rw [List.append_assoc]
      exact ih.append_left v

theorem flatMap_applyPairs_perm {α : Type} (ps : List (String × α))
    (m : List (String × List α)) :
    ((applyPairs m ps).flatMap Prod.snd).Perm (m.flatMap Prod.snd ++ ps.map Prod.snd) := by
  induction ps generalizing m with
  | nil => simp [applyPairs]
  | cons p rest ih =>
    have hstep : applyPairs m (p :: rest) = applyPairs (dappend m p.1 p.2) rest := rfl
    rw [hstep]
    refine (ih (dappend m p.1 p.2)).trans ?_
    refine ((flatMap_dappend_perm m p.1 p.2).append_right (rest.map Prod.snd)).trans ?_
    simp

theorem creditPairs_apply (ps : List (String × AccountAction)) (tr : String → ℚ) (x : String) :
    creditPairs tr ps x =
      tr x + ((ps.filter (fun p => decide (p.1 = x))).map (fun p => p.2.value)).sum := by
  induction ps generalizing tr with
  | nil => simp [creditPairs]
  | cons p rest ih =>
    have hstep : creditPairs tr (p :: rest) =
        creditPairs (updateFn tr p.1 (tr p.1 + p.2.value)) rest := rfl
    rw [hstep, ih]
    by_cases h : p.1 = x
    · subst h; simp [updateFn, List.filter_cons, add_assoc]
    · have hxs : ¬ x = p.1 := fun hh => h hh.symm
      simp [updateFn, List.filter_cons, h, hxs]

theorem debitPairs_apply (ps : List (String × AccountAction)) (tr : String → ℚ) (x : String) :
    debitPairs tr ps x =
      tr x - ((ps.filter (fun p => decide (p.1 = x))).map (fun p => p.2.value)).sum := by
  induction ps generalizing tr with
  | nil => simp [debitPairs]
  | cons p rest ih =>
    have hstep : debitPairs tr (p :: rest) =
        debitPairs (updateFn tr p.1 (tr p.1 - p.2.value)) rest := rfl
    rw [hstep, ih]
    by_cases h : p.1 = x
    · subst h; simp [updateFn, List.filter_cons, sub_sub]
    · have hxs : ¬ x = p.1 := fun hh => h hh.symm
      simp [updateFn, List.filter_cons, h, hxs]

theorem snd_ne_nil_applyPairs {α : Type} (ps : List (String × α))
    (m : List (String × List α)) (hm : ∀ e ∈ m, e.2 ≠ ([] : List α)) :
    ∀ e ∈ applyPairs m ps, e.2 ≠ [] := by
  induction ps generalizing m with
  | nil => exact hm
  | cons p rest ih => exact ih _ (snd_ne_nil_dappend m p.1 p.2 hm)

/-! ### The grouping of holdings by ticker -/

theorem groupByTicker_eq (hs : List Holding) :
    groupByTicker hs = applyPairs [] (hs.map (fun h => (h.ticker, h))) := by
  simp only [groupByTicker, applyPairs, List.foldl_map]
  rfl

theorem lookupD_groupByTicker (hs : List Holding) (k : String) :
    lookupD (groupByTicker hs) k [] = hs.filter (fun h => decide (h.ticker = k)) := by
  rw [groupByTicker_eq, lookupD_applyPairs, List.filter_map, List.map_map]
  simp [lookupD, Function.comp_def]

theorem keys_groupByTicker_nodup (hs : List Holding) :
    (keys (groupByTicker hs)).Nodup := by
  rw [groupByTicker_eq]
  exact keys_nodup_applyPairs _ _ (by simp [keys])

theorem mem_groupByTicker (hs : List Holding) (g : String × List Holding)
    (hg : g ∈ groupByTicker hs) :
    g.2 = hs.filter (fun h => decide (h.ticker = g.1)) := by
  rw [← lookupD_groupByTicker]
  exact (lookupD_of_mem _ [] (keys_groupByTicker_nodup hs) g hg).symm

theorem mem_groupByTicker_ne_nil (hs : List Holding) (g : String × List Holding)
    (hg : g ∈ groupByTicker hs) : g.2 ≠ [] := by
  rw [groupByTicker_eq] at hg
  exact snd_ne_nil_applyPairs _ _ (by simp) g hg

/-! ### The final sort of the adjustments -/

theorem insertByAbsDesc_perm (a : AdjWork) (l : List AdjWork) :
    (insertByAbsDesc a l).Perm (a :: l) := by
  induction l with
  | nil => simp [insertByAbsDesc]
  | cons b bs ih =>
    simp only [insertByAbsDesc]
    split
    · exact (ih.cons b).trans (List.Perm.swap a b bs)
    · exact List.Perm.refl _

theorem sortByAbsDesc_perm (l : List AdjWork) : (sortByAbsDesc l).Perm l := by
  induction l with
  | nil => exact List.Perm.refl _
  | cons a bs ih =>
    simp only [sortByAbsDesc, List.foldr_cons]
    exact (insertByAbsDesc_perm a _).trans (ih.cons a)

/-! ### The first (adjustment) pass -/

theorem mkAdjustment_some (tv : ℚ) (g : String × List Holding) (a : AdjWork)
    (h : mkAdjustment tv g = some a) :
    a.ticker = g.1 ∧ a.holdings = g.2 ∧
    a.target_weight = maxTargetWeight g.2 ∧
    a.current_value = (g.2.map (·.current_value)).sum ∧
    a.target_value = tv * (a.target_weight / 100) ∧
    a.adjustment_value = a.target_value - a.current_value ∧
    a.action = (if 0 < a.adjustment_value then "BUY" else "SELL") ∧
    maxTargetWeight g.2 ≠ 0 ∧ 100 < |a.adjustment_value| := by
  simp only [mkAdjustment] at h
  by_cases h1 : maxTargetWeight g.2 = 0
  · rw [if_pos h1] at h; simp at h
  · rw [if_neg h1] at h
    by_cases h2 : 100 < |tv * (maxTargetWeight g.2 / 100) - (g.2.map (·.current_value)).sum|
    · rw [if_pos h2] at h
      cases Option.some.inj h
      exact ⟨rfl, rfl, rfl, rfl, rfl, rfl, rfl, h1, h2⟩
    · rw [if_neg h2] at h; simp at h

theorem mkAdjustment_isSome (tv : ℚ) (g : String × List Holding) :
    (mkAdjustment tv g).isSome = true ↔
      (maxTargetWeight g.2 ≠ 0 ∧
       100 < |tv * (maxTargetWeight g.2 / 100) - (g.2.map (·.current_value)).sum|) := by
  simp only [mkAdjustment]
  by_cases h1 : maxTargetWeight g.2 = 0
  · rw [if_pos h1]; simp [h1]
  · rw [if_neg h1]
    by_cases h2 : 100 < |tv * (maxTargetWeight g.2 / 100) - (g.2.map (·.current_value)).sum|
    · rw [if_pos h2]; simp [h1, h2]
    · rw [if_neg h2]; simp [h1, h2]

theorem mem_adjustmentsPass (tv : ℚ) (hs : List Holding) (a : AdjWork) :
    a ∈ adjustmentsPass tv hs ↔ ∃ g ∈ groupByTicker hs, mkAdjustment tv g = some a := by
  simp [adjustmentsPass, List.mem_filterMap]

theorem adjPass_tickers_sublist (tv : ℚ) (gs : List (String × List Holding)) :
    ((gs.filterMap (mkAdjustment tv)).map (·.ticker)).Sublist (gs.map Prod.fst) := by
  induction gs with
  | nil => simp
  | cons g rest ih =>
    simp only [List.filterMap_cons]
    cases hmk : mkAdjustment tv g with
    | none => exact ih.cons g.1
    | some a =>
      have hta := (mkAdjustment_some tv g a hmk).1
      simp only [List.map_cons, hta]
      exact ih.cons₂ g.1

theorem adjPass_tickers_nodup (tv : ℚ) (hs : List Holding) :
    ((adjustmentsPass tv hs).map (·.ticker)).Nodup :=
  (keys_groupByTicker_nodup hs).sublist (adjPass_tickers_sublist tv (groupByTicker hs))

theorem adjPass_holdings (tv : ℚ) (hs : List Holding) (a : AdjWork)
    (ha : a ∈ adjustmentsPass tv hs) :
    a.holdings = hs.filter (fun h => decide (h.ticker = a.ticker)) ∧ a.holdings ≠ [] := by
  obtain ⟨g, hg, hmk⟩ := (mem_adjustmentsPass tv hs a).mp ha
  obtain ⟨hticker, hholds, -⟩ := mkAdjustment_some tv g a hmk
  refine ⟨?_, ?_⟩
  · rw [hholds, hticker]
    exact mem_groupByTicker hs g hg
  · rw [hholds]
    exact mem_groupByTicker_ne_nil hs g hg

/-! ### Shape of the pairs emitted by the allocation passes -/

theorem mem_exitPairs (a : AdjWork) (p : String × AccountAction)
    (hp : p ∈ exitPairs a) :
    ∃ h ∈ exitsOf a,
      p = (h.full_account,
           { action := "SELL", ticker := a.ticker, name := h.name,
             value := h.current_value }) := by
  obtain ⟨h, hh, hp⟩ := List.mem_map.mp hp
  exact ⟨h, hh, hp.symm⟩

theorem tickerSellPairs_action (a : AdjWork) (p : String × AccountAction)
    (hp : p ∈ tickerSellPairs a) :
    p.2.action = "SELL" ∧ p.2.ticker = a.ticker := by
  rcases List.mem_append.mp hp with h | h
  · obtain ⟨h0, hh0, hpe⟩ := List.mem_map.mp h
    rw [← hpe]
    exact ⟨rfl, rfl⟩
  · simp only [keepSellPairs] at h
    by_cases h1 : a.action = "SELL" ∧ keepsOf a ≠ []
    · rw [if_pos h1] at h
      by_cases h2 : 0 < remainingSell a
      · rw [if_pos h2] at h
        obtain ⟨h0, hh0, hpe⟩ := List.mem_map.mp h
        rw [← hpe]
        exact ⟨rfl, rfl⟩
      · rw [if_neg h2] at h; cases h
    · rw [if_neg h1] at h; cases h

theorem tickerBuyPairs_action (tr : String → ℚ) (a : AdjWork) (p : String × AccountAction)
    (hp : p ∈ tickerBuyPairs tr a) :
    p.2.action = "BUY" ∧ p.2.ticker = a.ticker ∧
      p.1 ∈ (keepsOf a).map Holding.full_account := by
  simp only [tickerBuyPairs] at hp
  by_cases h1 : a.action = "BUY"
  · rw [if_pos h1] at hp
    by_cases h2 : keepsOf a = []
    · rw [if_pos h2] at hp; cases hp
    · rw [if_neg h2] at hp
      by_cases h3 : 0 < totalAvailableCash tr a
      · rw [if_pos h3] at hp
        obtain ⟨h0, hh0, hpe⟩ := List.mem_map.mp hp
        rw [← hpe]
        exact ⟨rfl, rfl, List.mem_map_of_mem _ hh0⟩
      · rw [if_neg h3] at hp
        obtain ⟨h0, hh0, hpe⟩ := List.mem_map.mp hp
        rw [← hpe]
        exact ⟨rfl, rfl, List.mem_map_of_mem _ hh0⟩
  · rw [if_neg h1] at hp; cases hp

theorem mem_buyPassPairs (tr : String → ℚ) (ws : List AdjWork) (p : String × AccountAction)
    (hp : p ∈ buyPassPairs tr ws) :
    ∃ a ∈ ws, ∃ tr₁, p ∈ tickerBuyPairs tr₁ a := by
  induction ws generalizing tr with
  | nil => cases hp
  | cons a rest ih =>
    simp only [buyPassPairs] at hp
    rcases List.mem_append.mp hp with h | h
    · exact ⟨a, List.mem_cons_self _ _, tr, h⟩
    · obtain ⟨b, hb, tr₁, hbp⟩ := ih _ h
      exact ⟨b, List.mem_cons_of_mem _ hb, tr₁, hbp⟩

theorem mem_sellPhase (tv : ℚ) (hs : List Holding) (p : String × AccountAction)
    (hp : p ∈ sellPhase tv hs) :
    ∃ a ∈ adjustmentsPass tv hs, p ∈ tickerSellPairs a := by
  simpa [sellPhase] using List.mem_flatMap.mp hp

/-! ### Bridges between `analyze_rebalancing` and the pass definitions -/

theorem analyze_account_actions (hs : List Holding) (cb : List (String × ℚ)) (tv t : ℚ) :
    (analyze_rebalancing hs cb tv t).account_actions = accountActions hs cb tv := rfl

theorem analyze_adjustments (hs : List Holding) (cb : List (String × ℚ)) (tv t : ℚ) :
    (analyze_rebalancing hs cb tv t).adjustments =
      (sortByAbsDesc (adjustmentsPass tv hs)).map AdjWork.strip := rfl

theorem analyze_cash_needs (hs : List Holding) (cb : List (String × ℚ)) (tv t : ℚ) :
    (analyze_rebalancing hs cb tv t).account_cash_needs =
      (accountActions hs cb tv).filterMap (cashNeedOf cb) := rfl

theorem accountActions_lookup (hs : List Holding) (cb : List (String × ℚ)) (tv : ℚ)
    (x : String) :
    lookupD (accountActions hs cb tv) x [] =
      ((sellPhase tv hs).filter (fun p => decide (p.1 = x))).map Prod.snd ++
      ((buyPhase hs cb tv).filter (fun p => decide (p.1 = x))).map Prod.snd := by
  rw [accountActions, lookupD_applyPairs, lookupD_applyPairs]
  simp [lookupD]

theorem mem_analyze_adjustments (hs : List Holding) (cb : List (String × ℚ)) (tv t : ℚ)
    (adj : Adjustment) :
    adj ∈ (analyze_rebalancing hs cb tv t).adjustments ↔
      ∃ aw ∈ adjustmentsPass tv hs, AdjWork.strip aw = adj := by
  rw [analyze_adjustments]
  constructor
  · intro h
    obtain ⟨aw, haw, he⟩ := List.mem_map.mp h
    exact ⟨aw, (sortByAbsDesc_perm _).mem_iff.mp haw, he⟩
  · rintro ⟨aw, haw, he⟩
    exact List.mem_map.mpr ⟨aw, (sortByAbsDesc_perm _).mem_iff.mpr haw, he⟩

/-! ### The maximum target weight of a group -/

theorem foldl_max_start_le (l : List Holding) (m : ℚ) :
    m ≤ l.foldl (fun m x => max m x.target_weight) m := by
  induction l generalizing m with
  | nil => exact le_refl m
  | cons x xs ih => exact le_trans (le_max_left m x.target_weight) (ih _)

theorem le_foldl_max (l : List Holding) (h : Holding) (hh : h ∈ l) : ∀ m : ℚ,
    h.target_weight ≤ l.foldl (fun m x => max m x.target_weight) m := by
  induction l with
  | nil => cases hh
  | cons x xs ih =>
    intro m
    rcases List.mem_cons.mp hh with h1 | h1
    · subst h1
      exact le_trans (le_max_right m h.target_weight) (foldl_max_start_le xs _)
    · rw [List.foldl_cons]
      exact ih h1 _

theorem foldl_max_cases (l : List Holding) : ∀ m : ℚ,
    l.foldl (fun m x => max m x.target_weight) m = m ∨
    ∃ h ∈ l, l.foldl (fun m x => max m x.target_weight) m = h.target_weight := by
  induction l with
  | nil => intro m; exact Or.inl rfl
  | cons x xs ih =>
    intro m
    rcases ih (max m x.target_weight) with h1 | ⟨h, hh, he⟩
    · rcases max_choice m x.target_weight with hm | hm
      · left; rw [List.foldl_cons, h1, hm]
      · right; exact ⟨x, List.mem_cons_self _ _, by rw [List.foldl_cons, h1, hm]⟩
    · right; exact ⟨h, List.mem_cons_of_mem _ hh, by rw [List.foldl_cons, he]⟩

theorem maxTargetWeight_le (l : List Holding) (h : Holding) (hh : h ∈ l) :
    h.target_weight ≤ maxTargetWeight l := by
  cases l with
  | nil => cases hh
  | cons x xs =>
    simp only [maxTargetWeight]
    rcases List.mem_cons.mp hh with h1 | h1
    · subst h1; exact foldl_max_start_le xs _
    · exact le_foldl_max xs h h1 _

theorem maxTargetWeight_mem (l : List Holding) (hne : l ≠ []) :
    ∃ h ∈ l, maxTargetWeight l = h.target_weight := by
  cases l with
  | nil => cases hne rfl
  | cons x xs =>
    simp only [maxTargetWeight]
    rcases foldl_max_cases xs x.target_weight with h1 | ⟨h, hh, he⟩
    · exact ⟨x, List.mem_cons_self _ _, h1⟩
    · exact ⟨h, List.mem_cons_of_mem _ hh, he⟩

theorem mem_nodup_keys_eq {α : Type} (m : List (String × α)) (hm : (keys m).Nodup)
    (e₁ e₂ : String × α) (h1 : e₁ ∈ m) (h2 : e₂ ∈ m) (hk : e₁.1 = e₂.1) : e₁ = e₂ := by
  have hv1 := lookupD_of_mem m e₁.2 hm e₁ h1
  have hv2 := lookupD_of_mem m e₁.2 hm e₂ h2
  rw [← hk] at hv2
  cases e₁; cases e₂
  simp_all

/-- An adjustment in the returned list whose ticker is that of group `g`
arises from `mkAdjustment` on `g` itself. -/
theorem adj_of_mem_ticker (hs : List Holding) (cb : List (String × ℚ)) (tv t : ℚ)
    (g : String × List Holding) (hg : g ∈ groupByTicker hs)
    (adj : Adjustment) (hadj : adj ∈ (analyze_rebalancing hs cb tv t).adjustments)
    (ht : adj.ticker = g.1) :
    ∃ aw, mkAdjustment tv g = some aw ∧ AdjWork.strip aw = adj := by
  obtain ⟨aw, hawmem, hstrip⟩ := (mem_analyze_adjustments hs cb tv t adj).mp hadj
  obtain ⟨g₁, hg₁, hmk⟩ := (mem_adjustmentsPass tv hs aw).mp hawmem
  have htick := (mkAdjustment_some tv g₁ aw hmk).1
  have hgg : g₁ = g := by
    apply mem_nodup_keys_eq _ (keys_groupByTicker_nodup hs) g₁ g hg₁ hg
    rw [← htick, ← ht, ← hstrip]
    rfl
  exact ⟨aw, hgg ▸ hmk, hstrip⟩

/-! ### Claim theorems -/

/-- C9: the `cash_target_percentage` input is informational only — for fixed
holdings, cash balances and total value, any two values of the parameter
produce exactly the same `RebalanceResult`. -/
theorem cash_target_percentage_informational (hs : List Holding)
    (cb : List (String × ℚ)) (tv t₁ t₂ : ℚ) :
    analyze_rebalancing hs cb tv t₁ = analyze_rebalancing hs cb tv t₂ := rfl

/-- C10: in the returned `account_actions`, every SELL action appears earlier
in an account's list than every BUY action: each account's list splits as a
block of SELLs followed by a block of BUYs, because the whole sell pass runs
before the whole buy pass. -/
theorem sell_actions_precede_buy_actions (hs : List Holding) (cb : List (String × ℚ))
    (tv t : ℚ) (acc : String) :
    ∃ s b : List AccountAction,
      lookupD (analyze_rebalancing hs cb tv t).account_actions acc [] = s ++ b ∧
      (∀ x ∈ s, x.action = "SELL") ∧ (∀ x ∈ b, x.action = "BUY") := by
  refine ⟨_, _, by rw [analyze_account_actions, accountActions_lookup], ?_, ?_⟩
  · intro x hx
    obtain ⟨p, hp, hpe⟩ := List.mem_map.mp hx
    have hpm := (List.mem_filter.mp hp).1
    obtain ⟨a, _, hpt⟩ := mem_sellPhase tv hs p hpm
    rw [← hpe]
    exact (tickerSellPairs_action a p hpt).1
  · intro x hx
    obtain ⟨p, hp, hpe⟩ := List.mem_map.mp hx
    have hpm := (List.mem_filter.mp hp).1
    obtain ⟨a, _, tr₁, hpt⟩ := mem_buyPassPairs _ _ p hpm
    rw [← hpe]
    exact (tickerBuyPairs_action tr₁ a p hpt).1

/-- C3: for every ticker group an Adjustment is emitted iff the group's target
weight (the max across its holdings) is nonzero and the absolute difference
between `totalValue * target_weight / 100` and the aggregated current value
exceeds 100; when emitted its `target_value`, `adjustment_value` and action
label are as computed, and no returned Adjustment has
`|adjustment_value| ≤ 100`. -/
theorem adjustment_emission_rule (hs : List Holding) (cb : List (String × ℚ)) (tv t : ℚ)
    (g : String × List Holding) (hg : g ∈ groupByTicker hs) :
    ((∃ adj ∈ (analyze_rebalancing hs cb tv t).adjustments, adj.ticker = g.1) ↔
      (maxTargetWeight g.2 ≠ 0 ∧
       100 < |tv * (maxTargetWeight g.2 / 100) - (g.2.map (·.current_value)).sum|)) ∧
    (∀ adj ∈ (analyze_rebalancing hs cb tv t).adjustments, adj.ticker = g.1 →
       adj.target_value = tv * (maxTargetWeight g.2 / 100) ∧
       adj.adjustment_value = adj.target_value - (g.2.map (·.current_value)).sum ∧
       adj.action = (if 0 < adj.adjustment_value then "BUY" else "SELL")) ∧
    (∀ adj ∈ (analyze_rebalancing hs cb tv t).adjustments, 100 < |adj.adjustment_value|) := by
  refine ⟨⟨?_, ?_⟩, ?_, ?_⟩
  · rintro ⟨adj, hadj, ht⟩
    obtain ⟨aw, hmk, -⟩ := adj_of_mem_ticker hs cb tv t g hg adj hadj ht
    exact (mkAdjustment_isSome tv g).mp (by rw [hmk]; rfl)
  · rintro ⟨h1, h2⟩
    obtain ⟨aw, hmk⟩ :=
      Option.isSome_iff_exists.mp ((mkAdjustment_isSome tv g).mpr ⟨h1, h2⟩)
    refine ⟨aw.strip, ?_, ?_⟩
    · exact (mem_analyze_adjustments hs cb tv t _).mpr
        ⟨aw, (mem_adjustmentsPass tv hs aw).mpr ⟨g, hg, hmk⟩, rfl⟩
    · exact (mkAdjustment_some tv g aw hmk).1
  · intro adj hadj ht
    obtain ⟨aw, hmk, hstrip⟩ := adj_of_mem_ticker hs cb tv t g hg adj hadj ht
    obtain ⟨-, -, htw, hcv, htv, hav, hact, -, -⟩ := mkAdjustment_some tv g aw hmk
    subst hstrip
    refine ⟨?_, ?_, ?_⟩
    · show aw.target_value = _
      rw [htv, htw]
    · show aw.adjustment_value = aw.target_value - _
      rw [hav, hcv]
    · exact hact
  · intro adj hadj
    obtain ⟨aw, hawmem, hstrip⟩ := (mem_analyze_adjustments hs cb tv t adj).mp hadj
    obtain ⟨g₁, hg₁, hmk⟩ := (mem_adjustmentsPass tv hs aw).mp hawmem
    obtain ⟨-, -, -, -, -, -, -, -, habs⟩ := mkAdjustment_some tv g₁ aw hmk
    subst hstrip
    exact habs

/-- C4: the target weight used for a ticker's Adjustment is the maximum
target weight across that ticker's holdings — an upper bound that is
attained — so a 0% target in one account cannot suppress a positive target
held elsewhere. -/
theorem adjustment_target_weight_is_max (hs : List Holding) (cb : List (String × ℚ))
    (tv t : ℚ) (g : String × List Holding) (hg : g ∈ groupByTicker hs)
    (adj : Adjustment) (hadj : adj ∈ (analyze_rebalancing hs cb tv t).adjustments)
    (ht : adj.ticker = g.1) :
    adj.target_weight = maxTargetWeight g.2 ∧
    (∀ h ∈ g.2, h.target_weight ≤ adj.target_weight) ∧
    (∃ h ∈ g.2, adj.target_weight = h.target_weight) ∧
    (∀ h ∈ g.2, 0 < h.target_weight → 0 < adj.target_weight) := by
  obtain ⟨aw, hmk, hstrip⟩ := adj_of_mem_ticker hs cb tv t g hg adj hadj ht
  obtain ⟨-, -, htw, -⟩ := mkAdjustment_some tv g aw hmk
  subst hstrip
  have hmax : aw.strip.target_weight = maxTargetWeight g.2 := htw
  refine ⟨hmax, ?_, ?_, ?_⟩
  · intro h hh
    rw [hmax]
    exact maxTargetWeight_le g.2 h hh
  · rw [hmax]
    exact maxTargetWeight_mem g.2 (mem_groupByTicker_ne_nil hs g hg)
  · intro h hh hpos
    rw [hmax]
    exact lt_of_lt_of_le hpos (maxTargetWeight_le g.2 h hh)

/-- C8: no unguarded division — on wholly empty input the engine returns
empty adjustments, actions and cash needs, and when the accounts keeping a
ticker hold no value the proportional sell split contributes 0 to every one
of them (the source guards the division explicitly). -/
theorem analyze_division_guards :
    (analyze_rebalancing [] [] 0 (7.6 : ℚ)).adjustments = [] ∧
    (analyze_rebalancing [] [] 0 (7.6 : ℚ)).account_actions = [] ∧
    (analyze_rebalancing [] [] 0 (7.6 : ℚ)).account_cash_needs = [] ∧
    ∀ (a : AdjWork), keepValue a = 0 → 0 < remainingSell a →
      ∀ p ∈ keepSellPairs a, p.2.value = 0 := by
  refine ⟨rfl, rfl, rfl, ?_⟩
  intro a hkv hrem p hp
  simp only [keepSellPairs] at hp
  by_cases h1 : a.action = "SELL" ∧ keepsOf a ≠ []
  · rw [if_pos h1, if_pos hrem] at hp
    obtain ⟨h0, hh0, hpe⟩ := List.mem_map.mp hp
    rw [← hpe]
    simp [hkv]
  · rw [if_neg h1] at hp
    cases hp

/-- A holding kept (nonzero target weight) but currently worth nothing. -/
def zeroKeepHolding : Holding :=
  { owner := "EF", asset_type := "EQ", account := "SIPP", ticker := "T", name := "N",
    quantity := 1, book_cost := 0, current_value := 0, current_weight := 0,
    target_weight := 10 }

/-- A degenerate SELL adjustment whose single kept holding has value 0,
used to witness the division guard in the proportional sell split. -/
def zeroKeepAdj : AdjWork :=
  { ticker := "T", name := "N", current_value := 0, target_value := 0,
    adjustment_value := -200, current_weight := 0, target_weight := 10,
    adjustment_pct := 0, action := "SELL", held_in_accounts := [],
    holdings := [zeroKeepHolding] }

theorem analyze_division_guards_witness :
    keepValue zeroKeepAdj = 0 ∧ 0 < remainingSell zeroKeepAdj ∧
    ({ action := "SELL", ticker := "T", name := "N", value := 0 } : AccountAction).value = 0 :=
  ⟨by norm_num [keepValue, keepsOf, zeroKeepAdj, zeroKeepHolding],
   by norm_num [remainingSell, exitValue, exitsOf, zeroKeepAdj, zeroKeepHolding],
   analyze_division_guards.2.2.2 zeroKeepAdj
     (by norm_num [keepValue, keepsOf, zeroKeepAdj, zeroKeepHolding])
     (by norm_num [remainingSell, exitValue, exitsOf, zeroKeepAdj, zeroKeepHolding])
     (zeroKeepHolding.full_account, { action := "SELL", ticker := "T", name := "N", value := 0 })
     (by norm_num [keepSellPairs, keepsOf, keepValue, remainingSell, exitValue, exitsOf,
                   zeroKeepAdj, zeroKeepHolding])⟩

/-! ### Concrete example: one under-allocated ticker (spec Scenario A) -/

/-- Scenario A holding: ticker ABC, value 10000, target weight 15%. -/
def wHolding : Holding :=
  { owner := "EF", asset_type := "EQ", account := "SIPP", ticker := "ABC",
    name := "Abc Fund", quantity := 1, book_cost := 10000, current_value := 10000,
    current_weight := 10, target_weight := 15 }

/-- The working adjustment the engine computes for Scenario A. -/
def wAdjW : AdjWork :=
  { ticker := "ABC", name := "Abc Fund", current_value := 10000, target_value := 15000,
    adjustment_value := 5000, current_weight := 10, target_weight := 15,
    adjustment_pct := -5, action := "BUY", held_in_accounts := ["Ed Forrester SIPP"],
    holdings := [wHolding] }

theorem wExample_mkAdjustment :
    mkAdjustment 100000 (wHolding.ticker, [wHolding]) = some wAdjW := by
  have habs : |(5000 : ℚ)| = 5000 := by rw [abs_of_pos]; norm_num
  have hstr : "Ed Forrester" ++ " " ++ "SIPP" = "Ed Forrester SIPP" := rfl
  norm_num [mkAdjustment, maxTargetWeight, wHolding, wAdjW, Holding.full_account, hstr, habs]

theorem wExample_adjustments :
    (analyze_rebalancing [wHolding] [] 100000 (7.6 : ℚ)).adjustments = [wAdjW.strip] := by
  rw [analyze_adjustments]
  norm_num [adjustmentsPass, groupByTicker, addToGroup, dappend, wExample_mkAdjustment,
    List.filterMap_cons, sortByAbsDesc, insertByAbsDesc]

theorem wExample_group : ("ABC", [wHolding]) ∈ groupByTicker [wHolding] :=
  List.mem_singleton.mpr rfl

theorem adjustment_emission_rule_witness :
    ((∃ adj ∈ (analyze_rebalancing [wHolding] [] 100000 (7.6 : ℚ)).adjustments,
        adj.ticker = "ABC") ↔
      (maxTargetWeight [wHolding] ≠ 0 ∧
       100 < |(100000 : ℚ) * (maxTargetWeight [wHolding] / 100) -
         (([wHolding].map (·.current_value)).sum)|)) ∧
    (∀ adj ∈ (analyze_rebalancing [wHolding] [] 100000 (7.6 : ℚ)).adjustments,
       adj.ticker = "ABC" →
       adj.target_value = 100000 * (maxTargetWeight [wHolding] / 100) ∧
       adj.adjustment_value = adj.target_value - (([wHolding].map (·.current_value)).sum) ∧
       adj.action = (if 0 < adj.adjustment_value then "BUY" else "SELL")) ∧
    (∀ adj ∈ (analyze_rebalancing [wHolding] [] 100000 (7.6 : ℚ)).adjustments,
       100 < |adj.adjustment_value|) :=
  adjustment_emission_rule [wHolding] [] 100000 7.6 ("ABC", [wHolding]) wExample_group

theorem adjustment_target_weight_is_max_witness :
    wAdjW.strip.target_weight = maxTargetWeight [wHolding] ∧
    (∀ h ∈ [wHolding], h.target_weight ≤ wAdjW.strip.target_weight) ∧
    (∃ h ∈ [wHolding], wAdjW.strip.target_weight = h.target_weight) ∧
    (∀ h ∈ [wHolding], 0 < h.target_weight → 0 < wAdjW.strip.target_weight) :=
  adjustment_target_weight_is_max [wHolding] [] 100000 7.6 ("ABC", [wHolding])
    wExample_group wAdjW.strip
    (by rw [wExample_adjustments]; exact List.mem_singleton.mpr rfl) rfl

/-! ### C1: full exits happen only for tickers with an emitted Adjustment -/

/-- A lone holding with target weight 0: its ticker's group is skipped in the
first pass, so the sell pass never visits it. -/
def zHolding : Holding :=
  { owner := "EF", asset_type := "EQ", account := "SIPP", ticker := "ZRO",
    name := "Zro Fund", quantity := 1, book_cost := 1000, current_value := 1000,
    current_weight := 100, target_weight := 0 }

/-- C1 counterexample: `zHolding` has target weight 0 and positive current
value, yet the engine emits no AccountAction at all for it — the sell pass
iterates only over tickers with an emitted Adjustment, and ticker ZRO is
skipped outright (its maximum target weight is 0). -/
theorem full_exit_requires_adjustment_counterexample :
    zHolding.target_weight = 0 ∧ 0 < zHolding.current_value ∧
    (analyze_rebalancing [zHolding] [] 1000 (7.6 : ℚ)).account_actions = [] :=
  ⟨rfl, by norm_num [zHolding], rfl⟩

/-- C1 (amended): for every ticker with an emitted Adjustment, every holding
of that ticker with target weight 0 and positive current value receives a
SELL AccountAction for its entire current value in its account's returned
action list; and after the sell pass the available-cash tracker of every
account equals its input cash balance plus the total value of the sell-pass
actions credited to it. -/
theorem full_exit_sell_rule (hs : List Holding) (cb : List (String × ℚ)) (tv t : ℚ)
    (a : AdjWork) (ha : a ∈ adjustmentsPass tv hs) (h : Holding) (hh : h ∈ a.holdings)
    (htw : h.target_weight = 0) (hcv : 0 < h.current_value) :
    ({ action := "SELL", ticker := a.ticker, name := h.name,
       value := h.current_value } : AccountAction) ∈
      lookupD (analyze_rebalancing hs cb tv t).account_actions h.full_account [] ∧
    (∀ acc, trackerAfterSells hs cb tv acc =
       lookupD cb acc 0 +
       (((sellPhase tv hs).filter (fun p => decide (p.1 = acc))).map
         (fun p => p.2.value)).sum) := by
  constructor
  · have hin : h ∈ exitsOf a :=
      List.mem_filter.mpr ⟨hh, by rw [decide_eq_true_eq]; exact ⟨htw, hcv⟩⟩
    have hpair : (h.full_account,
        ({ action := "SELL", ticker := a.ticker, name := h.name,
           value := h.current_value } : AccountAction)) ∈ exitPairs a :=
      List.mem_map_of_mem _ hin
    have hps := List.mem_append_left (keepSellPairs a) hpair
    have hsp : (h.full_account,
        ({ action := "SELL", ticker := a.ticker, name := h.name,
           value := h.current_value } : AccountAction)) ∈ sellPhase tv hs :=
      List.mem_flatMap.mpr ⟨a, ha, hps⟩
    rw [analyze_account_actions, accountActions_lookup]
    apply List.mem_append_left
    exact List.mem_map.mpr
      ⟨_, List.mem_filter.mpr ⟨hsp, by rw [decide_eq_true_eq]⟩, rfl⟩
  · intro acc
    rw [trackerAfterSells, creditPairs_apply]
    rfl

/-! ### Concrete example: ticker exited in one account (spec Scenario B) -/

/-- Scenario B holding P: XYZ in the SIPP, 20000, target weight 0. -/
def bP : Holding :=
  { owner := "EF", asset_type := "EQ", account := "SIPP", ticker := "XYZ",
    name := "Xyz Fund", quantity := 1, book_cost := 20000, current_value := 20000,
    current_weight := 20, target_weight := 0 }

/-- Scenario B holding Q: XYZ in the ISA, 5000, target weight 10%. -/
def bQ : Holding :=
  { owner := "EF", asset_type := "EQ", account := "ISA", ticker := "XYZ",
    name := "Xyz Fund", quantity := 1, book_cost := 5000, current_value := 5000,
    current_weight := 5, target_weight := 10 }

/-- The working adjustment the engine computes for Scenario B. -/
def bAdjW : AdjWork :=
  { ticker := "XYZ", name := "Xyz Fund", current_value := 25000, target_value := 10000,
    adjustment_value := -15000, current_weight := 25, target_weight := 10,
    adjustment_pct := 15, action := "SELL",
    held_in_accounts := ["Ed Forrester SIPP", "Ed Forrester ISA"],
    holdings := [bP, bQ] }

theorem bExample_mkAdjustment :
    mkAdjustment 100000 (bP.ticker, [bP, bQ]) = some bAdjW := by
  have habs : |(-15000 : ℚ)| = 15000 := by
    rw [abs_of_neg (by norm_num)]; norm_num
  have hsipp : "Ed Forrester" ++ " " ++ "SIPP" = "Ed Forrester SIPP" := rfl
  have hisa : "Ed Forrester" ++ " " ++ "ISA" = "Ed Forrester ISA" := rfl
  norm_num [mkAdjustment, maxTargetWeight, max_def, bP, bQ, bAdjW,
    Holding.full_account, hsipp, hisa, habs]

theorem bExample_adjPass : adjustmentsPass 100000 [bP, bQ] = [bAdjW] := by
  rw [adjustmentsPass, show groupByTicker [bP, bQ] = [(bP.ticker, [bP, bQ])] from rfl]
  simp [List.filterMap_cons, bExample_mkAdjustment]

theorem bExample_adjMem : bAdjW ∈ adjustmentsPass 100000 [bP, bQ] := by
  rw [bExample_adjPass]
  exact List.mem_singleton.mpr rfl

theorem full_exit_sell_rule_witness :
    ({ action := "SELL", ticker := bAdjW.ticker, name := bP.name,
       value := bP.current_value } : AccountAction) ∈
      lookupD (analyze_rebalancing [bP, bQ] [] 100000 (7.6 : ℚ)).account_actions
        bP.full_account [] ∧
    (∀ acc, trackerAfterSells [bP, bQ] [] 100000 acc =
       lookupD [] acc 0 +
       (((sellPhase 100000 [bP, bQ]).filter (fun p => decide (p.1 = acc))).map
         (fun p => p.2.value)).sum) :=
  full_exit_sell_rule [bP, bQ] [] 100000 7.6 bAdjW bExample_adjMem bP
    (List.mem_cons_self bP [bQ]) rfl (by norm_num [bP])

/-! ### C7: the funding-needs pass -/

/-- C7: for every account with an entry in `account_actions`, an entry for it
appears in `account_cash_needs` with value `total buys - total |sells| -
original cash balance` exactly when that quantity is strictly positive, and
every recorded funding need is strictly positive. -/
theorem cash_needs_rule (hs : List Holding) (cb : List (String × ℚ)) (tv t : ℚ) :
    (∀ acc actions, (acc, actions) ∈ (analyze_rebalancing hs cb tv t).account_actions →
       (((acc, ((actions.filter (fun x => decide (x.action = "BUY"))).map (·.value)).sum -
               ((actions.filter (fun x => decide (x.action = "SELL"))).map
                 (fun x => |x.value|)).sum -
               lookupD cb acc 0) ∈ (analyze_rebalancing hs cb tv t).account_cash_needs) ↔
         0 < ((actions.filter (fun x => decide (x.action = "BUY"))).map (·.value)).sum -
             ((actions.filter (fun x => decide (x.action = "SELL"))).map
               (fun x => |x.value|)).sum -
             lookupD cb acc 0)) ∧
    (∀ p ∈ (analyze_rebalancing hs cb tv t).account_cash_needs, 0 < p.2) := by
  have hpos : ∀ p ∈ (analyze_rebalancing hs cb tv t).account_cash_needs, 0 < p.2 := by
    intro p hp
    rw [analyze_cash_needs] at hp
    obtain ⟨e, he, hc⟩ := List.mem_filterMap.mp hp
    simp only [cashNeedOf] at hc
    split_ifs at hc with h0
    cases Option.some.inj hc
    exact h0
  refine ⟨?_, hpos⟩
  intro acc actions hmem
  constructor
  · intro hin
    exact hpos _ hin
  · intro h0
    rw [analyze_cash_needs]
    refine List.mem_filterMap.mpr ⟨(acc, actions), ?_, ?_⟩
    · rw [analyze_account_actions] at hmem
      exact hmem
    · simp only [cashNeedOf]
      rw [if_pos h0]

/-- The single BUY action produced in Scenario A. -/
def wBuyAct : AccountAction :=
  { action := "BUY", ticker := "ABC", name := "Abc Fund", value := 5000 }

theorem wExample_adjPass : adjustmentsPass 100000 [wHolding] = [wAdjW] := by
  rw [adjustmentsPass, show groupByTicker [wHolding] = [(wHolding.ticker, [wHolding])] from rfl]
  simp [List.filterMap_cons, wExample_mkAdjustment]

theorem wExample_sellPhase : sellPhase 100000 [wHolding] = [] := by
  rw [sellPhase, wExample_adjPass]
  norm_num [tickerSellPairs, exitPairs, exitsOf, keepSellPairs, wAdjW, wHolding]
  intro h
  exact absurd h (by decide)

theorem wExample_actions :
    (analyze_rebalancing [wHolding] [] 100000 (7.6 : ℚ)).account_actions =
      [("Ed Forrester SIPP", [wBuyAct])] := by
  rw [analyze_account_actions, accountActions, wExample_sellPhase]
  have htr : trackerAfterSells [wHolding] [] 100000 = tracker0 [] := by
    rw [trackerAfterSells, wExample_sellPhase]
    rfl
  rw [buyPhase, htr, wExample_adjPass]
  have hstr : "Ed Forrester" ++ " " ++ "SIPP" = "Ed Forrester SIPP" := rfl
  norm_num [buyPassPairs, tickerBuyPairs, keepsOf, totalAvailableCash, tracker0, lookupD,
    wAdjW, wHolding, Holding.full_account, hstr, applyPairs, dappend, wBuyAct]

theorem cash_needs_rule_witness :
    (("Ed Forrester SIPP",
        (([wBuyAct].filter (fun x => decide (x.action = "BUY"))).map (·.value)).sum -
        (([wBuyAct].filter (fun x => decide (x.action = "SELL"))).map
          (fun x => |x.value|)).sum -
        lookupD [] "Ed Forrester SIPP" 0) ∈
          (analyze_rebalancing [wHolding] [] 100000 (7.6 : ℚ)).account_cash_needs) ↔
      0 < (([wBuyAct].filter (fun x => decide (x.action = "BUY"))).map (·.value)).sum -
          (([wBuyAct].filter (fun x => decide (x.action = "SELL"))).map
            (fun x => |x.value|)).sum -
          lookupD [] "Ed Forrester SIPP" 0 :=
  (cash_needs_rule [wHolding] [] 100000 7.6).1 "Ed Forrester SIPP" [wBuyAct]
    (by rw [wExample_actions]; exact List.mem_singleton.mpr rfl)

/-! ### C2: conservation of the adjustment value across account actions -/

/-- The signed value of an account action: BUY counts positive, SELL counts
negative. -/
def signedValue (x : AccountAction) : ℚ :=
  if x.action = "BUY" then x.value else -x.value

/-- What one ticker's buy pass contributes to the ticker's signed total,
independently of the tracker state. -/
def buyContrib (a : AdjWork) : ℚ :=
  if a.action = "BUY" ∧ keepsOf a ≠ [] then a.adjustment_value else 0

theorem sum_map_mul_div (l : List Holding) (f : Holding → ℚ) (c d : ℚ) :
    (l.map (fun h => c * (f h / d))).sum = c * (l.map f).sum / d := by
  induction l with
  | nil => simp
  | cons x xs ih =>
    simp only [List.map_cons, List.sum_cons, ih]
    ring

theorem sum_map_const_q (l : List Holding) (c : ℚ) :
    (l.map (fun _ => c)).sum = (l.length : ℚ) * c := by
  induction l with
  | nil => simp
  | cons x xs ih =>
    simp only [List.map_cons, List.sum_cons, ih, List.length_cons]
    push_cast
    ring

theorem keeps_accounts_nodup (a : AdjWork)
    (hacc : (a.holdings.map Holding.full_account).Nodup) :
    ((keepsOf a).map Holding.full_account).Nodup :=
  hacc.sublist ((List.filter_sublist _).map Holding.full_account)

theorem sum_map_signed_pairs (l : List Holding) (f : Holding → String × AccountAction)
    (g : Holding → ℚ) (hfg : ∀ h ∈ l, signedValue (f h).2 = g h) :
    (((l.map f).map Prod.snd).map signedValue).sum = (l.map g).sum := by
  induction l with
  | nil => simp
  | cons x xs ih =>
    simp only [List.map_cons, List.sum_cons]
    rw [hfg x (List.mem_cons_self _ _), ih (fun h hh => hfg h (List.mem_cons_of_mem _ hh))]

theorem tickerBuySum (tr : String → ℚ) (a : AdjWork)
    (hacc : ((keepsOf a).map Holding.full_account).Nodup) :
    (((tickerBuyPairs tr a).map Prod.snd).map signedValue).sum = buyContrib a := by
  simp only [tickerBuyPairs, buyContrib]
  by_cases h1 : a.action = "BUY"
  · rw [if_pos h1]
    by_cases h2 : keepsOf a = []
    · rw [if_pos h2, if_neg (by simp [h1, h2])]
      simp
    · rw [if_neg h2]
      by_cases h3 : 0 < totalAvailableCash tr a
      · rw [if_pos h3, if_pos (show a.action = "BUY" ∧ keepsOf a ≠ [] from ⟨h1, h2⟩)]
        rw [sum_map_signed_pairs _ _
          (fun h => a.adjustment_value * (tr h.full_account / totalAvailableCash tr a))
          (fun h _ => by simp [signedValue])]
        rw [sum_map_mul_div]
        have hded : (((keepsOf a).map Holding.full_account).dedup) =
            (keepsOf a).map Holding.full_account := List.Nodup.dedup hacc
        have htot : ((keepsOf a).map (fun h => tr h.full_account)).sum
            = totalAvailableCash tr a := by
          rw [totalAvailableCash, hded, List.map_map]
          rfl
        rw [htot]
        exact mul_div_cancel_right₀ _ (ne_of_gt h3)
      · rw [if_neg h3, if_pos (show a.action = "BUY" ∧ keepsOf a ≠ [] from ⟨h1, h2⟩)]
        rw [sum_map_signed_pairs _ _
          (fun _ => a.adjustment_value / ((keepsOf a).length : ℚ))
          (fun h _ => by simp [signedValue])]
        rw [sum_map_const_q]
        have hn : ((keepsOf a).length : ℚ) ≠ 0 := by
          exact_mod_cast Nat.pos_iff_ne_zero.mp (List.length_pos.mpr h2)
        field_simp
  · rw [if_neg h1, if_neg (by simp [h1])]
    simp

theorem sum_map_neg_q (l : List Holding) (f : Holding → ℚ) :
    (l.map (fun h => -f h)).sum = -((l.map f).sum) := by
  induction l with
  | nil => simp
  | cons x xs ih =>
    simp only [List.map_cons, List.sum_cons, ih]
    ring

theorem exitPairs_sum (a : AdjWork) :
    (((exitPairs a).map Prod.snd).map signedValue).sum = -(exitValue a) := by
  rw [exitPairs,
    sum_map_signed_pairs _ _ (fun h => -h.current_value) (fun h _ => by simp [signedValue]),
    exitValue, sum_map_neg_q _ (fun h => h.current_value)]

theorem keepSellPairs_sum_pos (a : AdjWork) (hsell : a.action = "SELL")
    (hkeep : keepsOf a ≠ []) (hrem : 0 < remainingSell a) (hkv : 0 < keepValue a) :
    (((keepSellPairs a).map Prod.snd).map signedValue).sum = -(remainingSell a) := by
  rw [keepSellPairs, if_pos ⟨hsell, hkeep⟩, if_pos hrem]
  rw [sum_map_signed_pairs _ _
    (fun h => -(remainingSell a * (h.current_value / keepValue a)))
    (fun h _ => by simp [signedValue, hkv])]
  rw [sum_map_neg_q _ (fun h => remainingSell a * (h.current_value / keepValue a))]
  rw [sum_map_mul_div]
  rw [show ((keepsOf a).map (fun h => h.current_value)).sum = keepValue a from rfl]
  rw [mul_div_cancel_right₀ _ (ne_of_gt hkv)]

theorem flatMap_ticker_sum (F : AdjWork → List (String × AccountAction))
    (hF : ∀ w p, p ∈ F w → p.2.ticker = w.ticker)
    (ws : List AdjWork) (hnd : (ws.map (·.ticker)).Nodup)
    (a : AdjWork) (ha : a ∈ ws) :
    ((((ws.flatMap F).map Prod.snd).filter (fun x => decide (x.ticker = a.ticker))).map
      signedValue).sum = (((F a).map Prod.snd).map signedValue).sum := by
  induction ws with
  | nil => cases ha
  | cons w rest ih =>
    simp only [List.flatMap_cons, List.map_append, List.filter_append, List.sum_append]
    have hnd2 : (rest.map (·.ticker)).Nodup := (List.nodup_cons.mp hnd).2
    rcases List.mem_cons.mp ha with rfl | hmem
    · have h1 : ((F a).map Prod.snd).filter (fun x => decide (x.ticker = a.ticker))
          = (F a).map Prod.snd := by
        rw [List.filter_eq_self]
        intro x hx
        obtain ⟨p, hp, hpe⟩ := List.mem_map.mp hx
        rw [← hpe, decide_eq_true_eq]
        exact hF a p hp
      have h2 : ((rest.flatMap F).map Prod.snd).filter
          (fun x => decide (x.ticker = a.ticker)) = [] := by
        rw [List.filter_eq_nil_iff]
        intro x hx
        obtain ⟨p, hp, hpe⟩ := List.mem_map.mp hx
        obtain ⟨w₁, hw₁, hpw⟩ := List.mem_flatMap.mp hp
        have htk : p.2.ticker = w₁.ticker := hF w₁ p hpw
        have hne : w₁.ticker ≠ a.ticker := by
          intro hc
          apply (List.nodup_cons.mp hnd).1
          simpa [← hc] using List.mem_map_of_mem (fun x => x.ticker) hw₁
        rw [← hpe]
        simp [htk, hne]
      rw [h1, h2]
      simp
    · have hw : w.ticker ≠ a.ticker := by
        intro hc
        apply (List.nodup_cons.mp hnd).1
        simpa [hc] using List.mem_map_of_mem (fun x => x.ticker) hmem
      have h1 : ((F w).map Prod.snd).filter (fun x => decide (x.ticker = a.ticker)) = [] := by
        rw [List.filter_eq_nil_iff]
        intro x hx
        obtain ⟨p, hp, hpe⟩ := List.mem_map.mp hx
        have htk : p.2.ticker = w.ticker := hF w p hp
        rw [← hpe]
        simp [htk, hw]
      rw [h1, ih hnd2 hmem]
      simp

theorem buyPass_ticker_sum (a : AdjWork)
    (hacc : ((keepsOf a).map Holding.full_account).Nodup)
    (ws : List AdjWork) (hnd : (ws.map (·.ticker)).Nodup) (ha : a ∈ ws) : ∀ tr,
    ((((buyPassPairs tr ws).map Prod.snd).filter (fun x => decide (x.ticker = a.ticker))).map
      signedValue).sum = buyContrib a := by
  induction ws with
  | nil => cases ha
  | cons w rest ih =>
    intro tr
    simp only [buyPassPairs, List.map_append, List.filter_append, List.sum_append]
    have hnd2 : (rest.map (·.ticker)).Nodup := (List.nodup_cons.mp hnd).2
    rcases List.mem_cons.mp ha with rfl | hmem
    · have h1 : ((tickerBuyPairs tr a).map Prod.snd).filter
          (fun x => decide (x.ticker = a.ticker)) = (tickerBuyPairs tr a).map Prod.snd := by
        rw [List.filter_eq_self]
        intro x hx
        obtain ⟨p, hp, hpe⟩ := List.mem_map.mp hx
        rw [← hpe, decide_eq_true_eq]
        exact (tickerBuyPairs_action tr a p hp).2.1
      have h2 : ((buyPassPairs (debitPairs tr (tickerBuyPairs tr a)) rest).map Prod.snd).filter
          (fun x => decide (x.ticker = a.ticker)) = [] := by
        rw [List.filter_eq_nil_iff]
        intro x hx
        obtain ⟨p, hp, hpe⟩ := List.mem_map.mp hx
        obtain ⟨w₁, hw₁, tr₁, hpw⟩ := mem_buyPassPairs _ _ p hp
        have htk : p.2.ticker = w₁.ticker := (tickerBuyPairs_action tr₁ w₁ p hpw).2.1
        have hne : w₁.ticker ≠ a.ticker := by
          intro hc
          apply (List.nodup_cons.mp hnd).1
          simpa [← hc] using List.mem_map_of_mem (fun x => x.ticker) hw₁
        rw [← hpe]
        simp [htk, hne]
      rw [h1, h2, tickerBuySum tr a hacc]
      simp
    · have hw : w.ticker ≠ a.ticker := by
        intro hc
        apply (List.nodup_cons.mp hnd).1
        simpa [hc] using List.mem_map_of_mem (fun x => x.ticker) hmem
      have h1 : ((tickerBuyPairs tr w).map Prod.snd).filter
          (fun x => decide (x.ticker = a.ticker)) = [] := by
        rw [List.filter_eq_nil_iff]
        intro x hx
        obtain ⟨p, hp, hpe⟩ := List.mem_map.mp hx
        have htk : p.2.ticker = w.ticker := (tickerBuyPairs_action tr w p hp).2.1
        rw [← hpe]
        simp [htk, hw]
      rw [h1, ih hnd2 hmem (debitPairs tr (tickerBuyPairs tr w))]
      simp

theorem allActions_perm (hs : List Holding) (cb : List (String × ℚ)) (tv : ℚ) :
    ((accountActions hs cb tv).flatMap Prod.snd).Perm
      ((sellPhase tv hs).map Prod.snd ++ (buyPhase hs cb tv).map Prod.snd) := by
  have h1 := flatMap_applyPairs_perm (buyPhase hs cb tv) (applyPairs [] (sellPhase tv hs))
  have h2 := flatMap_applyPairs_perm (sellPhase tv hs)
    ([] : List (String × List AccountAction))
  exact h1.trans ((h2.trans (by simp)).append_right _)

theorem perm_signed_sum (l₁ l₂ : List AccountAction) (hp : l₁.Perm l₂) (tk : String) :
    ((l₁.filter (fun x => decide (x.ticker = tk))).map signedValue).sum
      = ((l₂.filter (fun x => decide (x.ticker = tk))).map signedValue).sum :=
  ((hp.filter _).map _).sum_eq

theorem keeps_ne_nil (hs : List Holding) (tv : ℚ)
    (hw : ∀ h ∈ hs, 0 ≤ h.target_weight) (a : AdjWork)
    (ha : a ∈ adjustmentsPass tv hs) : keepsOf a ≠ [] := by
  obtain ⟨g, hg, hmk⟩ := (mem_adjustmentsPass tv hs a).mp ha
  obtain ⟨-, hholds, -, -, -, -, -, hne0, -⟩ := mkAdjustment_some tv g a hmk
  obtain ⟨h, hh, hmax⟩ := maxTargetWeight_mem g.2 (mem_groupByTicker_ne_nil hs g hg)
  have hmem_hs : h ∈ hs := by
    have hfil := mem_groupByTicker hs g hg
    rw [hfil] at hh
    exact (List.mem_filter.mp hh).1
  have htwne : h.target_weight ≠ 0 := fun hc => hne0 (by rw [hmax, hc])
  have hpos : 0 < h.target_weight := lt_of_le_of_ne (hw h hmem_hs) (Ne.symm htwne)
  intro hnil
  have hkm : h ∈ keepsOf a := by
    apply List.mem_filter.mpr
    refine ⟨?_, ?_⟩
    · rw [hholds]; exact hh
    · rw [decide_eq_true_eq]; exact hpos
  rw [hnil] at hkm
  cases hkm

theorem adjPass_action (tv : ℚ) (hs : List Holding) (a : AdjWork)
    (ha : a ∈ adjustmentsPass tv hs) :
    a.action = (if 0 < a.adjustment_value then "BUY" else "SELL") := by
  obtain ⟨g, hg, hmk⟩ := (mem_adjustmentsPass tv hs a).mp ha
  exact (mkAdjustment_some tv g a hmk).2.2.2.2.2.2.1

/-- C2 (amended): for a ticker with an emitted Adjustment, the signed sum of
its per-account action values (BUY positive, SELL negative) equals the
Adjustment's `adjustment_value` — provided target weights are nonnegative,
the ticker's holdings sit in pairwise distinct accounts, a BUY ticker has no
zero-target holding with positive value, and a SELL ticker's exited value
does not exceed `|adjustment_value|` with the kept holdings worth something
whenever a strict remainder is left.  Sums are exact over ℚ, so the 1e-6
relative tolerance of the claim is subsumed by equality. -/
theorem conservation_rule (hs : List Holding) (cb : List (String × ℚ)) (tv t : ℚ)
    (hw : ∀ h ∈ hs, 0 ≤ h.target_weight)
    (a : AdjWork) (ha : a ∈ adjustmentsPass tv hs)
    (hacc : (a.holdings.map Holding.full_account).Nodup)
    (hbuyexit : a.action = "BUY" → exitsOf a = [])
    (hsellexit : a.action = "SELL" → exitValue a ≤ |a.adjustment_value| ∧
       (exitValue a < |a.adjustment_value| → 0 < keepValue a)) :
    ((((analyze_rebalancing hs cb tv t).account_actions.flatMap Prod.snd).filter
        (fun x => decide (x.ticker = a.ticker))).map signedValue).sum
      = a.adjustment_value := by
  rw [analyze_account_actions,
    perm_signed_sum _ _ (allActions_perm hs cb tv) a.ticker,
    List.filter_append, List.map_append, List.sum_append]
  have hnd := adjPass_tickers_nodup tv hs
  have hkeeps := keeps_ne_nil hs tv hw a ha
  have hacck := keeps_accounts_nodup a hacc
  rw [sellPhase, flatMap_ticker_sum tickerSellPairs
    (fun w p hp => (tickerSellPairs_action w p hp).2) (adjustmentsPass tv hs) hnd a ha]
  rw [buyPhase, buyPass_ticker_sum a hacck (adjustmentsPass tv hs) hnd ha
    (trackerAfterSells hs cb tv)]
  have hact := adjPass_action tv hs a ha
  by_cases hpos : 0 < a.adjustment_value
  · have hactB : a.action = "BUY" := by rw [hact, if_pos hpos]
    have hexit : exitsOf a = [] := hbuyexit hactB
    have hsell0 : (((tickerSellPairs a).map Prod.snd).map signedValue).sum = 0 := by
      rw [tickerSellPairs, exitPairs, hexit, keepSellPairs,
        if_neg (fun hc => by rw [hactB] at hc; exact absurd hc.1 (by decide))]
      simp
    rw [hsell0, buyContrib, if_pos ⟨hactB, hkeeps⟩]
    ring
  · have hactS : a.action = "SELL" := by rw [hact, if_neg hpos]
    have hbc0 : buyContrib a = 0 := by
      rw [buyContrib,
        if_neg (fun hc => by rw [hactS] at hc; exact absurd hc.1 (by decide))]
    obtain ⟨hle, himp⟩ := hsellexit hactS
    rw [hbc0, tickerSellPairs, List.map_append, List.map_append, List.sum_append,
      exitPairs_sum]
    have habs : |a.adjustment_value| = -a.adjustment_value :=
      abs_of_nonpos (not_lt.mp hpos)
    by_cases hrem : 0 < remainingSell a
    · have hkv : 0 < keepValue a := himp (by rw [remainingSell] at hrem; linarith)
      rw [keepSellPairs_sum_pos a hactS hkeeps hrem hkv, remainingSell, habs]
      ring
    · have hks0 : keepSellPairs a = [] := by
        rw [keepSellPairs, if_pos ⟨hactS, hkeeps⟩, if_neg hrem]
      have hexit_eq : exitValue a = |a.adjustment_value| :=
        le_antisymm hle (by rw [remainingSell] at hrem; linarith)
      rw [hks0, hexit_eq, habs]
      simp

/-! ### Concrete example: BUY ticker with a zero-target holding elsewhere -/

/-- AAA in the SIPP: value 5000, target weight 0 (to be exited). -/
def c2P : Holding :=
  { owner := "EF", asset_type := "EQ", account := "SIPP", ticker := "AAA",
    name := "Aaa Fund", quantity := 1, book_cost := 5000, current_value := 5000,
    current_weight := 25, target_weight := 0 }

/-- AAA in the ISA: value 1000, target weight 50%. -/
def c2Q : Holding :=
  { owner := "EF", asset_type := "EQ", account := "ISA", ticker := "AAA",
    name := "Aaa Fund", quantity := 1, book_cost := 1000, current_value := 1000,
    current_weight := 5, target_weight := 50 }

/-- The working adjustment for ticker AAA: a BUY of 4000. -/
def c2AdjW : AdjWork :=
  { ticker := "AAA", name := "Aaa Fund", current_value := 6000, target_value := 10000,
    adjustment_value := 4000, current_weight := 30, target_weight := 50,
    adjustment_pct := -20, action := "BUY",
    held_in_accounts := ["Ed Forrester SIPP", "Ed Forrester ISA"],
    holdings := [c2P, c2Q] }

theorem c2_mkAdjustment :
    mkAdjustment 20000 (c2P.ticker, [c2P, c2Q]) = some c2AdjW := by
  have habs : |(4000 : ℚ)| = 4000 := by rw [abs_of_pos]; norm_num
  have hsipp : "Ed Forrester" ++ " " ++ "SIPP" = "Ed Forrester SIPP" := rfl
  have hisa : "Ed Forrester" ++ " " ++ "ISA" = "Ed Forrester ISA" := rfl
  norm_num [mkAdjustment, maxTargetWeight, max_def, c2P, c2Q, c2AdjW,
    Holding.full_account, hsipp, hisa, habs]

theorem c2_adjPass : adjustmentsPass 20000 [c2P, c2Q] = [c2AdjW] := by
  rw [adjustmentsPass, show groupByTicker [c2P, c2Q] = [(c2P.ticker, [c2P, c2Q])] from rfl]
  simp [List.filterMap_cons, c2_mkAdjustment]

/-- The SELL action exiting AAA from the SIPP. -/
def c2Sell : AccountAction :=
  { action := "SELL", ticker := "AAA", name := "Aaa Fund", value := 5000 }

/-- The BUY action allocated to the ISA. -/
def c2Buy : AccountAction :=
  { action := "BUY", ticker := "AAA", name := "Aaa Fund", value := 4000 }

theorem c2_sellPhase :
    sellPhase 20000 [c2P, c2Q] = [("Ed Forrester SIPP", c2Sell)] := by
  rw [sellPhase, c2_adjPass]
  have hsipp : "Ed Forrester" ++ " " ++ "SIPP" = "Ed Forrester SIPP" := rfl
  norm_num [tickerSellPairs, exitPairs, exitsOf, keepSellPairs, c2AdjW, c2P, c2Q,
    Holding.full_account, hsipp, c2Sell]
  intro h
  exact absurd h (by decide)

theorem c2_actions :
    (analyze_rebalancing [c2P, c2Q] [] 20000 (7.6 : ℚ)).account_actions =
      [("Ed Forrester SIPP", [c2Sell]), ("Ed Forrester ISA", [c2Buy])] := by
  rw [analyze_account_actions, accountActions, c2_sellPhase]
  have htr : trackerAfterSells [c2P, c2Q] [] 20000 =
      creditPairs (tracker0 []) [("Ed Forrester SIPP", c2Sell)] := by
    rw [trackerAfterSells, c2_sellPhase]
  rw [buyPhase, htr, c2_adjPass]
  have hisa : "Ed Forrester" ++ " " ++ "ISA" = "Ed Forrester ISA" := rfl
  have hne1 : ¬("Ed Forrester ISA" = "Ed Forrester SIPP") := by decide
  have hne2 : ¬("Ed Forrester SIPP" = "Ed Forrester ISA") := by decide
  norm_num [buyPassPairs, tickerBuyPairs, keepsOf, totalAvailableCash, creditPairs,
    tracker0, updateFn, lookupD, c2AdjW, c2P, c2Q, Holding.full_account, hisa,
    applyPairs, dappend, c2Buy, c2Sell, hne1, hne2]

/-- C2 counterexample: for ticker AAA the engine emits an Adjustment with
`adjustment_value = 4000` (BUY), yet the signed sum of the AccountActions it
emits for AAA is -1000: the sell pass fully exits the 5000 zero-target SIPP
position of a BUY ticker on top of the 4000 of buys, and the difference far
exceeds any 1e-6 relative tolerance. -/
theorem conservation_counterexample :
    (∃ adj ∈ (analyze_rebalancing [c2P, c2Q] [] 20000 (7.6 : ℚ)).adjustments,
       adj.ticker = "AAA" ∧ adj.adjustment_value = 4000) ∧
    ((((analyze_rebalancing [c2P, c2Q] [] 20000 (7.6 : ℚ)).account_actions.flatMap
        Prod.snd).filter (fun x => decide (x.ticker = "AAA"))).map signedValue).sum
      = -1000 ∧
    (1 / 1000000 : ℚ) * |(4000 : ℚ)| < |(-1000 : ℚ) - 4000| := by
  refine ⟨?_, ?_, ?_⟩
  · have hadj : (analyze_rebalancing [c2P, c2Q] [] 20000 (7.6 : ℚ)).adjustments
        = [c2AdjW.strip] := by
      rw [analyze_adjustments, c2_adjPass]
      rfl
    rw [hadj]
    exact ⟨c2AdjW.strip, List.mem_singleton.mpr rfl, rfl, rfl⟩
  · rw [c2_actions]
    have hne : ¬("SELL" = "BUY") := by decide
    norm_num [signedValue, c2Sell, c2Buy, hne]
  · have h4 : |(4000 : ℚ)| = 4000 := by rw [abs_of_pos]; norm_num
    have h5 : |(-1000 : ℚ) - 4000| = 5000 := by
      rw [show ((-1000 : ℚ) - 4000) = -5000 by norm_num, abs_of_neg (by norm_num)]
      norm_num
    rw [h4, h5]
    norm_num

theorem conservation_rule_witness :
    ((((analyze_rebalancing [wHolding] [] 100000 (7.6 : ℚ)).account_actions.flatMap
        Prod.snd).filter (fun x => decide (x.ticker = wAdjW.ticker))).map signedValue).sum
      = wAdjW.adjustment_value :=
  conservation_rule [wHolding] [] 100000 7.6
    (by intro h hh; rcases List.mem_singleton.mp hh with rfl; norm_num [wHolding])
    wAdjW
    (by rw [wExample_adjPass]; exact List.mem_singleton.mpr rfl)
    (by norm_num [wAdjW, wHolding])
    (fun _ => by norm_num [exitsOf, wAdjW, wHolding])
    (fun hc => absurd hc (by decide))

/-! ### C5 and C6: the two allocation branches -/

theorem sellPair_in_actions (hs : List Holding) (cb : List (String × ℚ)) (tv t : ℚ)
    (a : AdjWork) (ha : a ∈ adjustmentsPass tv hs)
    (p : String × AccountAction) (hp : p ∈ tickerSellPairs a) :
    p.2 ∈ lookupD (analyze_rebalancing hs cb tv t).account_actions p.1 [] := by
  have hsp : p ∈ sellPhase tv hs := List.mem_flatMap.mpr ⟨a, ha, hp⟩
  rw [analyze_account_actions, accountActions_lookup]
  exact List.mem_append_left _
    (List.mem_map.mpr ⟨p, List.mem_filter.mpr ⟨hsp, by rw [decide_eq_true_eq]⟩, rfl⟩)

/-- C5: for a ticker whose Adjustment is a SELL with at least one kept
holding — if `remaining_sell > 0` it is distributed across the kept holdings
proportionally to their share of the kept value (0 when that value is not
positive), one SELL per account, all landing in the returned action lists;
if `remaining_sell ≤ 0` the kept holdings receive no sell from this pass. -/
theorem proportional_sell_rule (hs : List Holding) (cb : List (String × ℚ)) (tv t : ℚ)
    (a : AdjWork) (ha : a ∈ adjustmentsPass tv hs)
    (hsell : a.action = "SELL") (hkeep : keepsOf a ≠ []) :
    (0 < remainingSell a →
       keepSellPairs a = (keepsOf a).map (fun h =>
         (h.full_account,
          { action := "SELL", ticker := a.ticker, name := h.name,
            value := remainingSell a *
              (if 0 < keepValue a then h.current_value / keepValue a else 0) })) ∧
       (∀ p ∈ tickerSellPairs a,
          p.2 ∈ lookupD (analyze_rebalancing hs cb tv t).account_actions p.1 [])) ∧
    (remainingSell a ≤ 0 → keepSellPairs a = []) := by
  refine ⟨?_, ?_⟩
  · intro hrem
    refine ⟨?_, ?_⟩
    · rw [keepSellPairs, if_pos ⟨hsell, hkeep⟩, if_pos hrem]
    · intro p hp
      exact sellPair_in_actions hs cb tv t a ha p hp
  · intro hrem
    rw [keepSellPairs, if_pos ⟨hsell, hkeep⟩, if_neg (not_lt.mpr hrem)]

theorem proportional_sell_rule_witness :
    (0 < remainingSell bAdjW →
       keepSellPairs bAdjW = (keepsOf bAdjW).map (fun h =>
         (h.full_account,
          { action := "SELL", ticker := bAdjW.ticker, name := h.name,
            value := remainingSell bAdjW *
              (if 0 < keepValue bAdjW then h.current_value / keepValue bAdjW else 0) })) ∧
       (∀ p ∈ tickerSellPairs bAdjW,
          p.2 ∈ lookupD (analyze_rebalancing [bP, bQ] [] 100000 (7.6 : ℚ)).account_actions
            p.1 [])) ∧
    (remainingSell bAdjW ≤ 0 → keepSellPairs bAdjW = []) :=
  proportional_sell_rule [bP, bQ] [] 100000 7.6 bAdjW bExample_adjMem rfl
    (by norm_num [keepsOf, bAdjW, bP, bQ])

/-- C6: for a ticker whose Adjustment is a BUY, buys go only to accounts of
positive-target holdings; a positive combined available cash is split
proportionally to each account's share of it, otherwise the amount is split
evenly across the eligible holdings; in both cases the tracker is debited by
exactly the buy amounts charged to each account, and every buy-pass action
lands in the returned action lists. -/
theorem buy_allocation_rule (hs : List Holding) (cb : List (String × ℚ)) (tv t : ℚ)
    (a : AdjWork) (ha : a ∈ adjustmentsPass tv hs)
    (hbuy : a.action = "BUY") (tr : String → ℚ) :
    (0 < totalAvailableCash tr a →
       tickerBuyPairs tr a = (keepsOf a).map (fun h =>
         (h.full_account,
          { action := "BUY", ticker := a.ticker, name := h.name,
            value := a.adjustment_value * (tr h.full_account / totalAvailableCash tr a) }))) ∧
    (keepsOf a ≠ [] → totalAvailableCash tr a ≤ 0 →
       tickerBuyPairs tr a = (keepsOf a).map (fun h =>
         (h.full_account,
          { action := "BUY", ticker := a.ticker, name := h.name,
            value := a.adjustment_value / ((keepsOf a).length : ℚ) }))) ∧
    (∀ p ∈ tickerBuyPairs tr a, p.1 ∈ (keepsOf a).map Holding.full_account) ∧
    (∀ acc, debitPairs tr (tickerBuyPairs tr a) acc =
       tr acc - (((tickerBuyPairs tr a).filter (fun p => decide (p.1 = acc))).map
         (fun p => p.2.value)).sum) ∧
    (∀ p ∈ buyPhase hs cb tv,
       p.2 ∈ lookupD (analyze_rebalancing hs cb tv t).account_actions p.1 []) := by
  refine ⟨?_, ?_, ?_, ?_, ?_⟩
  · intro hcash
    rw [tickerBuyPairs, if_pos hbuy]
    by_cases hk : keepsOf a = []
    · rw [if_pos hk, hk]
      simp
    · rw [if_neg hk, if_pos hcash]
  · intro hk hcash
    rw [tickerBuyPairs, if_pos hbuy, if_neg hk, if_neg (not_lt.mpr hcash)]
  · intro p hp
    exact (tickerBuyPairs_action tr a p hp).2.2
  · intro acc
    exact debitPairs_apply _ tr acc
  · intro p hp
    rw [analyze_account_actions, accountActions_lookup]
    exact List.mem_append_right _
      (List.mem_map.mpr ⟨p, List.mem_filter.mpr ⟨hp, by rw [decide_eq_true_eq]⟩, rfl⟩)

theorem buy_allocation_rule_witness :
    (0 < totalAvailableCash (tracker0 []) wAdjW →
       tickerBuyPairs (tracker0 []) wAdjW = (keepsOf wAdjW).map (fun h =>
         (h.full_account,
          { action := "BUY", ticker := wAdjW.ticker, name := h.name,
            value := wAdjW.adjustment_value *
              (tracker0 [] h.full_account / totalAvailableCash (tracker0 []) wAdjW) }))) ∧
    (keepsOf wAdjW ≠ [] → totalAvailableCash (tracker0 []) wAdjW ≤ 0 →
       tickerBuyPairs (tracker0 []) wAdjW = (keepsOf wAdjW).map (fun h =>
         (h.full_account,
          { action := "BUY", ticker := wAdjW.ticker, name := h.name,
            value := wAdjW.adjustment_value / ((keepsOf wAdjW).length : ℚ) }))) ∧
    (∀ p ∈ tickerBuyPairs (tracker0 []) wAdjW,
       p.1 ∈ (keepsOf wAdjW).map Holding.full_account) ∧
    (∀ acc, debitPairs (tracker0 []) (tickerBuyPairs (tracker0 []) wAdjW) acc =
       tracker0 [] acc -
         (((tickerBuyPairs (tracker0 []) wAdjW).filter
            (fun p => decide (p.1 = acc))).map (fun p => p.2.value)).sum) ∧
    (∀ p ∈ buyPhase [wHolding] [] 100000,
       p.2 ∈ lookupD (analyze_rebalancing [wHolding] [] 100000 (7.6 : ℚ)).account_actions
         p.1 []) :=
  buy_allocation_rule [wHolding] [] 100000 7.6 wAdjW
    (by rw [wExample_adjPass]; exact List.mem_singleton.mpr rfl) rfl (tracker0 [])

end Portfolio
